import Mathlib

/-!
# Verification of the vector-store ingestion/deletion core

Shallow embedding of the `directus-extension-vector-store` repository
(`src/rds-vs-endpoint/vs-store.ts`, `src/rds-vs-endpoint/embedding-processor.ts`).

Ledger entries are stored in Redis as JSON strings.  We model an entry as
either a record that deserializes to the `FileMetadata` shape (`Entry.ok`)
or a raw string on which `JSON.parse` fails (`Entry.bad`).  This is faithful
for the operations the endpoints perform: `JSON.parse` succeeds exactly on
the `ok` entries, serialized records are never equal to the raw sentinel
string `__DELETED__`, and the only value-equality comparison the code makes
on entries (`lRem`) is against that sentinel.
-/

namespace VS

/-- The `FileMetadata` shape of `vs-store.ts`.  Every field is optional
because `JSON.parse(entry) as FileMetadata` performs no validation: a parsed
object may lack any of the fields. -/
structure FileMetadata where
  fileName : Option String
  filePath : Option String
  processedAt : Option String
  chunkKeys : Option (List String)
  deriving DecidableEq, Repr

/-- A ledger list entry: either a string that parses to metadata, or a raw
string on which `JSON.parse` throws. -/
inductive Entry where
  | ok (m : FileMetadata)
  | bad (s : String)
  deriving DecidableEq, Repr

/-- Result of decoding one ledger entry in the `get` endpoint:
`JSON.parse(entry)` on success, the raw string on failure. -/
inductive GetItem where
  | parsed (m : FileMetadata)
  | rawStr (s : String)
  deriving DecidableEq, Repr

/-- The Redis state the endpoints touch: the `rds:processed_files` ledger
list (head = index 0, as `lPush`/`lRange` expose it) and the set of vector
record keys currently present. -/
structure VSState where
  ledger : List Entry
  vectors : List String
  deriving DecidableEq, Repr

/-- Commands issued against the backing store.  `indexDrop`/`indexCreate`
form the schema-management surface of the store (spec section 6); the
endpoint code can issue them only if it performs an index reset. -/
inductive RedisCmd where
  | lRange
  | del (key : String)
  | lSet (i : Nat) (v : Entry)
  | lRem (v : Entry)
  | lPush (v : Entry)
  | indexDrop
  | indexCreate
  deriving DecidableEq, Repr

/-- `get` endpoint, `vs-store.ts`: `files.map(entry => { try { return
JSON.parse(entry) } catch { return entry } })`. -/
def getFiles (ledger : List Entry) : List GetItem :=
  ledger.map fun e =>
    match e with
    | Entry.ok m => GetItem.parsed m
    | Entry.bad s => GetItem.rawStr s

/-- The `get` endpoint always answers 200 with the decoded list (it only
fails if the store itself fails). -/
def getEndpoint (ledger : List Entry) : Nat × List GetItem :=
  (200, getFiles ledger)

/-- The sentinel value the delete loop writes with `lSet` and then removes
with `lRem`: the raw string `__DELETED__`, which is not valid JSON. -/
def SENTINEL : Entry := Entry.bad "__DELETED__"

/-- `metadata.filePath === filePath` on a parsed entry. -/
def matchesPath (target : String) : Entry → Bool
  | Entry.ok m => m.filePath == some target
  | Entry.bad _ => false

/-- Chunk-key deletion of one matched record: `if (metadata.chunkKeys?.length)`
guards a pipeline of `DEL key` commands, one per chunk key. -/
def delKeys (m : FileMetadata) (vecs : List String) : List String :=
  match m.chunkKeys with
  | some ks => if ks.length ≠ 0 then vecs.filter (fun k => !(ks.contains k)) else vecs
  | none => vecs

/-- The `DEL` commands the pipeline issues for one matched record. -/
def delKeyCmds (m : FileMetadata) : List RedisCmd :=
  match m.chunkKeys with
  | some ks => if ks.length ≠ 0 then ks.map RedisCmd.del else []
  | none => []

/-- The delete scan of `vs-store.ts`: iterate `i` from `files.length - 1`
down to `0` over the snapshot; skip entries that fail to parse; on a path
match, delete the record's chunk keys, then `lSet` index `i` to the
sentinel and `lRem` one occurrence of the sentinel.  An out-of-range `lSet`
throws inside the `try`, which the `catch` swallows (`continue`), so in
that case neither list mutation happens.  Arguments: countdown counter
(`i + 1` means snapshot index `i` is processed next), live list, live
vector keys, `found` flag, issued-command trace (in order). -/
def deleteLoop (target : String) (snapshot : List Entry) :
    Nat → List Entry → List String → Bool → List RedisCmd →
    List Entry × List String × Bool × List RedisCmd
  | 0, live, vecs, found, tr => (live, vecs, found, tr)
  | i + 1, live, vecs, found, tr =>
    match snapshot[i]? with
    | none => deleteLoop target snapshot i live vecs found tr
    | some (Entry.bad _) => deleteLoop target snapshot i live vecs found tr
    | some (Entry.ok m) =>
      if m.filePath == some target then
        let vecs' := delKeys m vecs
        let tr' := tr ++ delKeyCmds m
        if i < live.length then
          deleteLoop target snapshot i ((live.set i SENTINEL).erase SENTINEL) vecs' true
            (tr' ++ [RedisCmd.lSet i SENTINEL, RedisCmd.lRem SENTINEL])
        else
          deleteLoop target snapshot i live vecs' true tr'
      else deleteLoop target snapshot i live vecs found tr

/-- The body of the `delete` endpoint after the `filePath` guard: snapshot
the ledger with `lRange`, run the scan, return the new state, the `found`
flag and the command trace. -/
def deleteModel (target : String) (st : VSState) :
    VSState × Bool × List RedisCmd :=
  let files := st.ledger
  let r := deleteLoop target files files.length st.ledger st.vectors false [RedisCmd.lRange]
  ({ ledger := r.1, vectors := r.2.1 }, r.2.2.1, r.2.2.2)

/-- Responses of the `delete` endpoint. -/
inductive DeleteRes where
  | ok
  | notFound
  | badRequest
  deriving DecidableEq, Repr

/-- Full `delete` endpoint: `const { filePath } = req.body; if (!filePath)
return 400`; then the scan; 404 when nothing matched, 200 otherwise. -/
def deleteEndpoint (target : Option String) (st : VSState) :
    VSState × DeleteRes × List RedisCmd :=
  match target with
  | none => (st, DeleteRes.badRequest, [])
  | some t =>
    if t = "" then (st, DeleteRes.badRequest, [])
    else
      let r := deleteModel t st
      (r.1, if r.2.1 then DeleteRes.ok else DeleteRes.notFound, r.2.2)

/-- The entries of a ledger that survive a delete for `target`: everything
whose deserialized form does not have `filePath` equal to the target. -/
def keepEntries (target : String) (l : List Entry) : List Entry :=
  l.filter (fun e => !(matchesPath target e))

/-- All chunk keys of the entries a delete for `target` matches, in scan
order of the snapshot suffix handed to it. -/
def matchedKeys (target : String) (l : List Entry) : List String :=
  l.flatMap fun e =>
    match e with
    | Entry.ok m => if m.filePath == some target then m.chunkKeys.getD [] else []
    | Entry.bad _ => []

/-! ## Ingestion pipeline (`embedding-processor.ts` and the `embed` endpoint) -/

/-- JavaScript `v || d` on a numeric field: `undefined`/non-numeric values
are modelled as `none`, and a numeric `0` is falsy, so both fall back to
the default. -/
def jsOrNum (v : Option Int) (d : Int) : Int :=
  match v with
  | none => d
  | some x => if x = 0 then d else x

/-- Chunk configuration as supplied to `processAndStoreEmbeddings`:
`number` fields of a JavaScript object, each possibly `undefined` or
non-numeric (`none`). -/
structure OptChunk where
  size : Option Int
  overlap : Option Int
  deriving DecidableEq, Repr

/-- Resolved chunk configuration. -/
structure ChunkCfg where
  size : Int
  overlap : Int
  deriving DecidableEq, Repr

/-- Lines 34–37 of `embedding-processor.ts`:
`{ overlap: fileConfig.chunk.overlap || 200, size: fileConfig.chunk.size || 1000 }`. -/
def resolveChunk (c : OptChunk) : ChunkCfg :=
  { size := jsOrNum c.size 1000, overlap := jsOrNum c.overlap 200 }

/-- A langchain document as this pipeline uses it: chunk text plus the
`metadata.id` field `storeEmbeddings` assigns. -/
structure Doc where
  content : String
  id : Option String
  deriving DecidableEq, Repr

/-- Spec section 4.2: `chunkKey(prefix, index) -> string` is
`prefix + index` — the template literal `` `${keyPrefix}${i}` `` of
`storeEmbeddings`. -/
def chunkKey (pfx : String) (i : Nat) : String :=
  pfx ++ Nat.repr i

/-- The key-assignment loop of `storeEmbeddings` (lines 137–141 of
`embedding-processor.ts`): for `i = 0..n-1` set
`documents[i].metadata.id = keyPrefix + i` and push that key. -/
def assignIds (pfx : String) (docs : List Doc) : List Doc :=
  docs.enum.map fun p => { p.2 with id := some (chunkKey pfx p.1) }

/-- The chunk keys `storeEmbeddings` accumulates, in chunk order. -/
def chunkKeysOf (pfx : String) (n : Nat) : List String :=
  (List.range n).map (chunkKey pfx)

/-- `storeEmbeddings` without the store round-trip: the records submitted
to the vector store, as (key, document) pairs, and the returned chunk
keys.  Modelled from the spec: the write itself
(`RedisVectorStore.fromDocuments`) is a dependency that is not part of
`src/`; per spec section 4.2 each record is stored under its chunk key,
which the code also plants in the record's `metadata.id`. -/
def storeEmbeddings (pfx : String) (docs : List Doc) :
    List (String × Doc) × List String :=
  ((assignIds pfx docs).enum.map fun p => (chunkKey pfx p.1, p.2),
   chunkKeysOf pfx docs.length)

/-- `processAndStoreEmbeddings` (lines 26–41 of `embedding-processor.ts`).
External effects are oracles: `loadR` is the document loader result
(`getDocumentLoader` + `loader.load()`, which throws on unsupported types
or unreachable sources), `splitFn` is the text splitter applied to the
loaded documents, and `storeR` is the outcome of the embedding +
vector-store write (`RedisVectorStore.fromDocuments`).  The chunk keys are
computed before the write and returned only when the write succeeds. -/
def processAndStoreEmbeddings (loadR : Except String (List Doc))
    (storeR : Except String Unit) (splitFn : ChunkCfg → List Doc → List Doc)
    (pfx : String) (c : OptChunk) : Except String (List String) :=
  match loadR with
  | Except.error e => Except.error e
  | Except.ok raw =>
    let chunk := resolveChunk c
    let docs := splitFn chunk raw
    let r := storeEmbeddings pfx docs
    match storeR with
    | Except.error e => Except.error e
    | Except.ok _ => Except.ok r.2

/-- A multer upload, as the `embed` endpoint reads it. -/
structure UploadFile where
  path : String
  originalname : String
  mimetype : Option String
  deriving DecidableEq, Repr

/-- The request of the `embed` endpoint.  `bodyChunkSize` and
`bodyChunkOverlap` model chunk parameters a caller may put in the request
body; the handler never reads them. -/
structure EmbedReq where
  file : Option UploadFile
  bodyFilePath : Option String
  bodyChunkSize : Option Int
  bodyChunkOverlap : Option Int
  deriving DecidableEq, Repr

/-- Responses of the `embed` endpoint. -/
inductive EmbedRes where
  | ok
  | badRequest
  | error (msg : String)
  deriving DecidableEq, Repr

/-- `getMimeTypeFromExtension` of `vs-store.ts`:
`filename.split('.').pop()?.toLowerCase()` then a switch. -/
def getMimeTypeFromExtension (filename : String) : String :=
  match ((filename.splitOn ".").getLast?.map String.toLower) with
  | some "csv" => "text/csv"
  | some "md" => "text/markdown"
  | some "txt" => "text/plain"
  | _ => "application/octet-stream"

/-- The `type` field of the `FileConfig` the `embed` endpoint builds:
octet-stream uploads are re-typed from the file extension. -/
def fcType (req : EmbedReq) : Option String :=
  match req.file with
  | none => none
  | some f =>
    if f.mimetype = some "application/octet-stream" then
      some (getMimeTypeFromExtension f.originalname)
    else f.mimetype

/-- The `FileConfig` object of `vs-store.ts`. -/
structure FileConfigM where
  path : String
  type : Option String
  chunk : OptChunk
  deriving DecidableEq, Repr

/-- Lines 313–322 of `vs-store.ts`: the `FileConfig` the `embed` handler
passes on.  The chunk configuration is the literal
`{ overlap: 200, size: 1000 }`; nothing from the request body flows into
it. -/
def mkFileConfig (req : EmbedReq) (path : String) : FileConfigM :=
  { path := path
    type := fcType req
    chunk := { size := some 1000, overlap := some 200 } }

/-- Step 1 of the `embed` handler: `filePath` from the upload, or
`z.string().url().parse(req.body.filePath)` (which throws when the body
field is missing or not a valid URL; `urlValid` is the validity oracle). -/
def resolvePath (req : EmbedReq) (urlValid : Bool) : Except String String :=
  match req.file with
  | some f => Except.ok f.path
  | none =>
    match req.bodyFilePath with
    | none => Except.error "url parse failed"
    | some s => if urlValid then Except.ok s else Except.error "url parse failed"

/-- Step 2: `originalFileName` from the upload, or `getPageTitle` over the
network (`titleR` is its outcome). -/
def resolveTitle (req : EmbedReq) (titleR : Except String String) :
    Except String String :=
  match req.file with
  | some f => Except.ok f.originalname
  | none => titleR

/-- The `embed` endpoint (lines 292–351 of `vs-store.ts`).  Any failure
before or during `processAndStoreEmbeddings` aborts with a 500 and leaves
the ledger alone; on success the metadata record (with the chunk keys
verbatim) is `lPush`ed onto the ledger.  `partialKeys` are vector keys a
failed store write may have left behind (spec section 4.7: orphans are
possible); `pushR` is the outcome of the `lPush` itself; `now` is
`new Date().toISOString()`. -/
def embedModel (req : EmbedReq) (urlValid : Bool) (titleR : Except String String)
    (loadR : Except String (List Doc)) (storeR : Except String Unit)
    (splitFn : ChunkCfg → List Doc → List Doc) (pfx : String)
    (partialKeys : List String) (pushR : Except String Unit) (now : String)
    (st : VSState) : VSState × EmbedRes :=
  match resolvePath req urlValid with
  | Except.error e => (st, EmbedRes.error e)
  | Except.ok path =>
    match resolveTitle req titleR with
    | Except.error e => (st, EmbedRes.error e)
    | Except.ok name =>
      if path = "" then (st, EmbedRes.badRequest)
      else
        let cfg := mkFileConfig req path
        match processAndStoreEmbeddings loadR storeR splitFn pfx cfg.chunk with
        | Except.error e =>
          ({ st with vectors := st.vectors ++ partialKeys }, EmbedRes.error e)
        | Except.ok keys =>
          match pushR with
          | Except.error e =>
            ({ st with vectors := st.vectors ++ keys }, EmbedRes.error e)
          | Except.ok _ =>
            ({ ledger :=
                 Entry.ok
                   { fileName := some name
                     filePath := some path
                     processedAt := some now
                     chunkKeys := some keys } :: st.ledger
               vectors := st.vectors ++ keys }, EmbedRes.ok)

/-! ## Decimal representation: `Nat.repr` is injective

`chunkKey` appends the decimal representation of the index; distinctness of
the generated keys needs injectivity of `Nat.repr`, proved here through a
structural description of `Nat.toDigitsCore`. -/

/-- Decimal digit list of `n`, most significant first, mirroring one full
run of `Nat.toDigitsCore`. -/
def decDigits (n : Nat) : List Char :=
  let d := Nat.digitChar (n % 10)
  let rest := n / 10
  if h : rest = 0 then [d] else decDigits rest ++ [d]
  decreasing_by
    exact Nat.div_lt_self (Nat.pos_of_ne_zero (fun h0 => h (by subst h0; decide))) (by decide)

/-- Numeric value of a digit character produced by `Nat.digitChar`. -/
def digitVal (c : Char) : Nat := c.toNat - 48

/-- Value of a most-significant-first digit character list. -/
def valOfDigits : List Char → Nat
  | [] => 0
  | c :: cs => digitVal c * 10 ^ cs.length + valOfDigits cs

/-! ## The text splitter

Modelled from the spec: the chunking engine (spec section 4.1) is the
`RecursiveCharacterTextSplitter` of the langchain dependency, configured in
`loadAndSplitDocuments` with `chunkSize`, `chunkOverlap` and the separator
hierarchy `['\n\n', '\n', ' ', '']`; the splitter implementation itself is
not part of `src/`.  Text is modelled as `List Char`.  The model follows
the spec's algorithm description: pick the first separator of the hierarchy
that occurs in the text (the empty separator splits into characters), split
on it, recurse into oversized fragments with the finer separators, and
re-merge adjacent fragments into chunks of at most `chunkSize` characters
that overlap by up to `chunkOverlap` characters; merged chunks are joined
with the separator and trimmed, and empty fragments/chunks are dropped. -/

/-- JavaScript `String.trim`, on the whitespace class of `Char.isWhitespace`. -/
def trimChars (l : List Char) : List Char :=
  ((l.dropWhile Char.isWhitespace).reverse.dropWhile Char.isWhitespace).reverse

/-- `docs.join(separator).trim()`; the caller drops the result if empty. -/
def joinDocs (sep : List Char) (docs : List (List Char)) : List Char :=
  trimChars (List.intercalate sep docs)

/-- Does `sep` occur in `l` (JavaScript `text.includes(sep)`)? -/
def containsList (sep : List Char) : List Char → Bool
  | [] => sep.isEmpty
  | c :: rest => sep.isPrefixOf (c :: rest) || containsList sep rest

/-- One step of `text.split(sep)` for non-empty `sep = s0 :: srest`:
accumulate characters until the separator is a prefix of the remainder.
The fuel argument only bounds the number of steps; every step strictly
shortens the text, so the fuel `jsSplit` supplies is never exhausted. -/
def splitOnAux (s0 : Char) (srest : List Char) :
    Nat → List Char → List Char → List (List Char)
  | _, [], acc => [acc.reverse]
  | 0, l, acc => [acc.reverse ++ l]
  | fuel + 1, c :: rest, acc =>
    if (s0 :: srest).isPrefixOf (c :: rest) then
      acc.reverse :: splitOnAux s0 srest fuel ((c :: rest).drop (srest.length + 1)) []
    else
      splitOnAux s0 srest fuel rest (c :: acc)

/-- JavaScript `text.split(sep)`; the empty separator splits into single
characters. -/
def jsSplit (sep : List Char) (text : List Char) : List (List Char) :=
  match sep with
  | [] => text.map (fun c => [c])
  | s0 :: srest => splitOnAux s0 srest (text.length + 1) text []

/-- The overlap-keeping shift of `mergeSplits`: while the running total
exceeds `chunkOverlap` (or the incoming fragment would still not fit),
drop the oldest fragment from the current window.  `lenS` is the length of
the incoming fragment, `sepLen` the separator length. -/
def popWhile (size overlap lenS sepLen : Nat) :
    List (List Char) → Nat → List (List Char) × Nat
  | [], total => ([], total)
  | d :: ds, total =>
    if overlap < total ∨ (size < total + lenS + sepLen ∧ 0 < total) then
      popWhile size overlap lenS sepLen ds
        (total - (d.length + (if ds.isEmpty then 0 else sepLen)))
    else (d :: ds, total)

/-- The main loop of `mergeSplits`: maintain the current window of
fragments and its running character total; when an incoming fragment would
overflow `chunkSize`, emit the joined window (if non-empty after trimming)
and shrink the window back to at most `chunkOverlap` characters. -/
def mergeLoop (size overlap : Nat) (sep : List Char) :
    List (List Char) → List (List Char) → Nat → List (List Char)
  | [], current, _total =>
    let d := joinDocs sep current
    if d = [] then [] else [d]
  | s :: rest, current, total =>
    let lenS := s.length
    if size < total + lenS + (if current.isEmpty then 0 else sep.length) then
      if current.isEmpty then
        mergeLoop size overlap sep rest [s] (total + lenS)
      else
        let d := joinDocs sep current
        let emitted := if d = [] then [] else [d]
        let p := popWhile size overlap lenS sep.length current total
        let current' := p.1 ++ [s]
        let total' := p.2 + lenS + (if current'.length > 1 then sep.length else 0)
        emitted ++ mergeLoop size overlap sep rest current' total'
    else
      mergeLoop size overlap sep rest (current ++ [s])
        (total + lenS + (if (current ++ [s]).length > 1 then sep.length else 0))

/-- `mergeSplits(splits, separator)` of the splitter. -/
def mergeSplits (size overlap : Nat) (sep : List Char)
    (splits : List (List Char)) : List (List Char) :=
  mergeLoop size overlap sep splits [] 0

/-- The fragment-processing loop of `_splitText`: fragments shorter than
`chunkSize` are collected into `good` and merged; an oversized fragment
flushes the collected ones and is handed to `recurse` when finer
separators remain (`useRec`), otherwise emitted as-is. -/
def procSplits (size overlap : Nat) (sep : List Char)
    (recurse : List Char → List (List Char)) (useRec : Bool) :
    List (List Char) → List (List Char) → List (List Char)
  | good, [] => if good.isEmpty then [] else mergeSplits size overlap sep good
  | good, s :: rest =>
    if s.length < size then
      procSplits size overlap sep recurse useRec (good ++ [s]) rest
    else
      (if good.isEmpty then [] else mergeSplits size overlap sep good) ++
      (if useRec then recurse s else [s]) ++
      procSplits size overlap sep recurse useRec [] rest

/-- `_splitText` at the last level of the hierarchy: separator `''`,
no finer separators.  `split('')` yields the single characters, and the
splitter filters out empty fragments before merging. -/
def splitL3 (size overlap : Nat) (text : List Char) : List (List Char) :=
  procSplits size overlap [] (fun _ => []) false []
    ((jsSplit [] text).filter (fun s => !s.isEmpty))

/-- `_splitText` with separators `[' ', '']`. -/
def splitL2 (size overlap : Nat) (text : List Char) : List (List Char) :=
  if containsList [' '] text then
    procSplits size overlap [' '] (splitL3 size overlap) true []
      ((jsSplit [' '] text).filter (fun s => !s.isEmpty))
  else splitL3 size overlap text

/-- `_splitText` with separators `['\n', ' ', '']`. -/
def splitL1 (size overlap : Nat) (text : List Char) : List (List Char) :=
  if containsList ['\n'] text then
    procSplits size overlap ['\n'] (splitL2 size overlap) true []
      ((jsSplit ['\n'] text).filter (fun s => !s.isEmpty))
  else splitL2 size overlap text

/-- The full splitter: `split(rawText, chunkSize, chunkOverlap)` with the
separator hierarchy `['\n\n', '\n', ' ', '']`. -/
def splitModel (size overlap : Nat) (text : List Char) : List (List Char) :=
  if containsList ['\n', '\n'] text then
    procSplits size overlap ['\n', '\n'] (splitL1 size overlap) true []
      ((jsSplit ['\n', '\n'] text).filter (fun s => !s.isEmpty))
  else splitL1 size overlap text

/-- Character-level sliding window: the behaviour of `mergeSplits` on
single-character fragments with the empty separator.  `w` is the current
window, the second argument the characters still to come. -/
def slide (size overlap : Nat) : List Char → List Char → List (List Char)
  | w, [] => if w.isEmpty then [] else [w]
  | w, c :: cs =>
    if size < w.length + 1 then
      w :: slide size overlap (w.drop (w.length - overlap) ++ [c]) cs
    else slide size overlap (w ++ [c]) cs

/-- Do consecutive chunks share exactly `overlap` characters: each chunk
starts with the last `overlap` characters of its predecessor? -/
def overlapChainB (overlap : Nat) : List (List Char) → Bool
  | a :: b :: rest =>
    (b.take overlap == a.drop (a.length - overlap)) &&
      overlapChainB overlap (b :: rest)
  | _ => true

/-- Concatenate chunks with the overlaps removed: the first chunk whole,
every later chunk without its first `overlap` characters. -/
def reconstructChunks (overlap : Nat) : List (List Char) → List Char
  | [] => []
  | c :: rest => c ++ reconstructTail overlap rest
where
  reconstructTail (overlap : Nat) : List (List Char) → List Char
  | [] => []
  | d :: ds => d.drop overlap ++ reconstructTail overlap ds

/-- The three properties claim C6 asserts of the splitter's output. -/
def splitClaimHolds (size overlap : Nat) (text : List Char) : Prop :=
  (∀ c ∈ splitModel size overlap text, c.length ≤ size) ∧
  overlapChainB overlap (splitModel size overlap text) = true ∧
  reconstructChunks overlap (splitModel size overlap text) = text

/-- Is a store command part of the index-reset surface (schema drop or
create)? -/
def isResetCmd (c : RedisCmd) : Bool :=
  c == RedisCmd.indexDrop || c == RedisCmd.indexCreate

/-- A command trace that never touches the index schema. -/
def resetFree (tr : List RedisCmd) : Bool :=
  tr.all fun c => ¬ isResetCmd c

end VS

namespace VS

/-! ## Theorems -/

theorem mem_of_containsList (c : Char) (rest : List Char) :
    ∀ (T : List Char), containsList (c :: rest) T = true → c ∈ T := by
  intro T
  induction T with
  | nil => intro h; simp [containsList] at h
  | cons a t ih =>
    intro h
    simp only [containsList, Bool.or_eq_true] at h
    rcases h with h | h
    · have : c = a := by
        cases hpf : (c :: rest).isPrefixOf (a :: t)
        · rw [hpf] at h; cases h
        · have := List.isPrefixOf_iff_prefix.mp hpf
          exact (List.cons_prefix_cons.mp this).1
      exact this ▸ List.mem_cons_self a t
    · exact List.mem_cons_of_mem a (ih h)

theorem containsList_false_of_ws_free (T : List Char)
    (hws : ∀ c ∈ T, c.isWhitespace = false) :
    containsList ['\n', '\n'] T = false ∧ containsList ['\n'] T = false ∧
      containsList [' '] T = false := by
  refine ⟨?_, ?_, ?_⟩ <;> {
    cases hc : containsList _ T
    · rfl
    · exfalso
      have hmem := mem_of_containsList _ _ T hc
      have := hws _ hmem
      simp at this }

theorem splitModel_eq_splitL3 (size overlap : Nat) (T : List Char)
    (hws : ∀ c ∈ T, c.isWhitespace = false) :
    splitModel size overlap T = splitL3 size overlap T := by
  obtain ⟨h1, h2, h3⟩ := containsList_false_of_ws_free T hws
  rw [splitModel, h1]
  simp only [Bool.false_eq_true, if_false]
  rw [splitL1, h2]
  simp only [Bool.false_eq_true, if_false]
  rw [splitL2, h3]
  simp only [Bool.false_eq_true, if_false]

theorem filter_nonempty_map_singleton (T : List Char) :
    ((T.map (fun c => [c])).filter (fun s => !s.isEmpty)) =
      T.map (fun c => [c]) := by
  apply List.filter_eq_self.mpr
  intro a ha
  obtain ⟨c, _, rfl⟩ := List.mem_map.mp ha
  rfl

theorem dropWhile_eq_self_of_ws_free (l : List Char)
    (hws : ∀ c ∈ l, c.isWhitespace = false) :
    l.dropWhile Char.isWhitespace = l := by
  cases l with
  | nil => rfl
  | cons a t =>
    rw [List.dropWhile_cons, hws a (List.mem_cons_self a t)]
    simp

theorem trimChars_eq_self (l : List Char)
    (hws : ∀ c ∈ l, c.isWhitespace = false) :
    trimChars l = l := by
  unfold trimChars
  rw [dropWhile_eq_self_of_ws_free l hws,
    dropWhile_eq_self_of_ws_free l.reverse
      (fun c hc => hws c (List.mem_reverse.mp hc)),
    List.reverse_reverse]

theorem intercalate_nil_eq_flatten (xs : List (List Char)) :
    List.intercalate [] xs = xs.flatten := by
  induction xs with
  | nil => rfl
  | cons a t ih =>
    cases t with
    | nil => simp [List.intercalate]
    | cons b t2 =>
      rw [List.intercalate] at ih ⊢
      rw [List.intersperse_cons_cons]
      simp only [List.flatten_cons, List.nil_append]
      simp only [List.flatten_cons] at ih
      rw [ih]

theorem flatten_map_singleton (w : List Char) :
    (w.map (fun c => [c])).flatten = w := by
  induction w with
  | nil => rfl
  | cons c t ih => simp [ih]

theorem joinDocs_nil_singletons (w : List Char)
    (hws : ∀ c ∈ w, c.isWhitespace = false) :
    joinDocs [] (w.map (fun c => [c])) = w := by
  rw [joinDocs, intercalate_nil_eq_flatten, flatten_map_singleton,
    trimChars_eq_self w hws]


theorem procSplits_all_good (size overlap : Nat) (sep : List Char)
    (recurse : List Char → List (List Char)) (useRec : Bool) :
    ∀ (splits good : List (List Char)), (∀ s ∈ splits, s.length < size) →
      procSplits size overlap sep recurse useRec good splits =
        if (good ++ splits).isEmpty then []
        else mergeSplits size overlap sep (good ++ splits) := by
  intro splits
  induction splits with
  | nil =>
    intro good _
    simp [procSplits]
  | cons s rest ih =>
    intro good h
    rw [procSplits, if_pos (h s (List.mem_cons_self s rest))]
    rw [ih (good ++ [s]) (fun x hx => h x (List.mem_cons_of_mem s hx))]
    rw [List.append_assoc, List.singleton_append]

theorem procSplits_all_oversized (size overlap : Nat) (sep : List Char)
    (recurse : List Char → List (List Char)) :
    ∀ (splits : List (List Char)), (∀ s ∈ splits, ¬ s.length < size) →
      procSplits size overlap sep recurse false [] splits = splits := by
  intro splits
  induction splits with
  | nil => intro _; rfl
  | cons s rest ih =>
    intro h
    rw [procSplits, if_neg (h s (List.mem_cons_self s rest))]
    rw [ih (fun x hx => h x (List.mem_cons_of_mem s hx))]
    rfl

theorem popWhile_singletons (size overlap : Nat) (hso : overlap < size) :
    ∀ (w : List Char) (total : Nat), total = w.length → overlap ≤ total →
      popWhile size overlap 1 0 (w.map (fun c => [c])) total =
        ((w.drop (total - overlap)).map (fun c => [c]), overlap) := by
  intro w
  induction w with
  | nil =>
    intro total ht hle
    simp only [List.length_nil] at ht
    subst ht
    have : overlap = 0 := Nat.le_zero.mp hle
    subst this
    rfl
  | cons c w' ih =>
    intro total ht hle
    by_cases hlt : overlap < total
    · rw [List.map_cons, popWhile, if_pos (Or.inl hlt)]
      have harg : total - ([c].length + (if (w'.map (fun c => [c])).isEmpty
          then 0 else 0)) = total - 1 := by
        cases (w'.map (fun c => [c])).isEmpty <;> simp
      rw [harg]
      have ht' : total - 1 = w'.length := by
        simp only [List.length_cons] at ht; omega
      rw [ih (total - 1) ht' (by omega)]
      have hdrop : (c :: w').drop (total - overlap) =
          w'.drop (total - 1 - overlap) := by
        rw [show total - overlap = (total - 1 - overlap) + 1 by omega]
        rfl
      rw [hdrop]
    · have htov : total = overlap := by omega
      subst htov
      have hc2 : ¬ (size < total + 1 + 0 ∧ 0 < total) := by
        intro hcon; omega
      rw [List.map_cons, popWhile, if_neg (by
        intro hcon
        rcases hcon with h | h
        · exact hlt h
        · exact hc2 h)]
      rw [Nat.sub_self]
      rfl

theorem mergeLoop_eq_slide (size overlap : Nat) (hso : overlap < size) :
    ∀ (cs w : List Char), w.length ≤ size →
      (∀ a ∈ w, a.isWhitespace = false) → (∀ a ∈ cs, a.isWhitespace = false) →
      mergeLoop size overlap [] (cs.map (fun c => [c])) (w.map (fun c => [c]))
        w.length = slide size overlap w cs := by
  intro cs
  induction cs with
  | nil =>
    intro w _ hwws _
    rw [List.map_nil, mergeLoop, joinDocs_nil_singletons w hwws, slide]
    cases w with
    | nil => rfl
    | cons a t => simp
  | cons c cs' ih =>
    intro w hwlen hwws hcws
    have hcw : c.isWhitespace = false := hcws c (List.mem_cons_self c cs')
    have hcs'ws : ∀ a ∈ cs', a.isWhitespace = false :=
      fun a ha => hcws a (List.mem_cons_of_mem c ha)
    rw [List.map_cons, mergeLoop]
    simp only [List.length_singleton, List.length_nil, ite_self, Nat.add_zero]
    by_cases hov : size < w.length + 1
    · have hwsize : w.length = size := by omega
      have hwne : w ≠ [] := by
        intro hcon
        subst hcon
        simp at hwsize
        omega
      have hcurne : (w.map (fun c => [c])).isEmpty = false := by
        cases w with
        | nil => exact absurd rfl hwne
        | cons a t => rfl
      rw [if_pos hov, hcurne]
      simp only [Bool.false_eq_true, if_false]
      rw [joinDocs_nil_singletons w hwws]
      rw [if_neg hwne]
      have hpop := popWhile_singletons size overlap hso w w.length rfl
        (by omega)
      rw [hpop]
      have hmap : (w.drop (w.length - overlap)).map (fun c => [c]) ++ [[c]] =
          ((w.drop (w.length - overlap)) ++ [c]).map (fun c => [c]) := by
        rw [List.map_append]; rfl
      rw [hmap]
      have hlen2 : ((w.drop (w.length - overlap)) ++ [c]).length = overlap + 1 := by
        rw [List.length_append, List.length_drop]
        simp only [List.length_singleton]
        omega
      dsimp only
      rw [← hlen2]
      rw [ih ((w.drop (w.length - overlap)) ++ [c])
        (by rw [hlen2]; omega)
        (by
          intro a ha
          rcases List.mem_append.mp ha with h | h
          · exact hwws a (List.mem_of_mem_drop h)
          · rw [List.mem_singleton.mp h]; exact hcw)
        hcs'ws]
      rw [slide, if_pos hov, List.singleton_append]
    · rw [if_neg hov]
      have hmap : w.map (fun c => [c]) ++ [[c]] =
          (w ++ [c]).map (fun c => [c]) := by
        rw [List.map_append]; rfl
      rw [hmap]
      have hlen3 : (w ++ [c]).length = w.length + 1 := by
        rw [List.length_append]; rfl
      rw [← hlen3]
      rw [ih (w ++ [c])
        (by rw [List.length_append]; simp only [List.length_singleton]; omega)
        (by
          intro a ha
          rcases List.mem_append.mp ha with h | h
          · exact hwws a h
          · rw [List.mem_singleton.mp h]; exact hcw)
        hcs'ws]
      rw [slide, if_neg hov]

theorem slide_length_le (size overlap : Nat) (hso : overlap < size) :
    ∀ (cs w : List Char), w.length ≤ size →
      ∀ ch ∈ slide size overlap w cs, ch.length ≤ size := by
  intro cs
  induction cs with
  | nil =>
    intro w hw ch hch
    rw [slide] at hch
    cases w with
    | nil => simp at hch
    | cons a t =>
      simp only [List.isEmpty_cons, Bool.false_eq_true, if_false,
        List.mem_singleton] at hch
      exact hch ▸ hw
  | cons c cs' ih =>
    intro w hw ch hch
    rw [slide] at hch
    by_cases hov : size < w.length + 1
    · rw [if_pos hov] at hch
      rcases List.mem_cons.mp hch with rfl | h
      · exact hw
      · refine ih _ ?_ ch h
        rw [List.length_append, List.length_drop]
        simp only [List.length_singleton]
        omega
    · rw [if_neg hov] at hch
      refine ih _ ?_ ch hch
      rw [List.length_append]
      simp only [List.length_singleton]
      omega

theorem slide_ne_nil (size overlap : Nat) :
    ∀ (cs w : List Char), w ≠ [] → slide size overlap w cs ≠ [] := by
  intro cs
  induction cs with
  | nil =>
    intro w hw
    rw [slide]
    cases w with
    | nil => exact absurd rfl hw
    | cons a t => simp
  | cons c cs' ih =>
    intro w hw
    rw [slide]
    by_cases hov : size < w.length + 1
    · rw [if_pos hov]; exact List.cons_ne_nil _ _
    · rw [if_neg hov]; exact ih _ (by simp)

theorem slide_head_prefix (size overlap : Nat) :
    ∀ (cs w hd : List Char) (tl : List (List Char)),
      slide size overlap w cs = hd :: tl → w <+: hd := by
  intro cs
  induction cs with
  | nil =>
    intro w hd tl h
    rw [slide] at h
    cases w with
    | nil => simp at h
    | cons a t =>
      simp only [List.isEmpty_cons, Bool.false_eq_true, if_false] at h
      injection h with h1 _
      exact h1 ▸ List.prefix_refl _
  | cons c cs' ih =>
    intro w hd tl h
    rw [slide] at h
    by_cases hov : size < w.length + 1
    · rw [if_pos hov] at h
      injection h with h1 _
      exact h1 ▸ List.prefix_refl _
    · rw [if_neg hov] at h
      exact (List.prefix_append w [c]).trans (ih _ hd tl h)

theorem slide_chain (size overlap : Nat) (hso : overlap < size) :
    ∀ (cs w : List Char), w.length ≤ size →
      overlapChainB overlap (slide size overlap w cs) = true := by
  intro cs
  induction cs with
  | nil =>
    intro w _
    rw [slide]
    cases w with
    | nil => rfl
    | cons a t => rfl
  | cons c cs' ih =>
    intro w hw
    rw [slide]
    by_cases hov : size < w.length + 1
    · rw [if_pos hov]
      have hw'len : (w.drop (w.length - overlap) ++ [c]).length = overlap + 1 := by
        rw [List.length_append, List.length_drop]
        simp only [List.length_singleton]
        omega
      have hne : w.drop (w.length - overlap) ++ [c] ≠ [] := by simp
      rcases hrest : slide size overlap (w.drop (w.length - overlap) ++ [c]) cs'
        with _ | ⟨hd, tl⟩
      · exact absurd hrest (slide_ne_nil size overlap cs' _ hne)
      · rw [overlapChainB, Bool.and_eq_true]
        constructor
        · obtain ⟨t2, ht2⟩ := slide_head_prefix size overlap cs' _ hd tl hrest
          have hdlen : (w.drop (w.length - overlap)).length = overlap := by
            rw [List.length_drop]; omega
          have htake : hd.take overlap = w.drop (w.length - overlap) := by
            rw [← ht2, List.append_assoc]
            exact List.take_left' hdlen
          simp [htake]
        · have := ih (w.drop (w.length - overlap) ++ [c]) (by omega)
          rwa [hrest] at this
    · rw [if_neg hov]
      refine ih (w ++ [c]) ?_
      rw [List.length_append]
      simp only [List.length_singleton]
      omega

theorem slide_reconstruct (size overlap : Nat) (hso : overlap < size) :
    ∀ (cs w : List Char), w ≠ [] → w.length ≤ size →
      reconstructChunks overlap (slide size overlap w cs) = w ++ cs := by
  intro cs
  induction cs with
  | nil =>
    intro w hw _
    rw [slide]
    cases w with
    | nil => exact absurd rfl hw
    | cons a t =>
      simp only [List.isEmpty_cons, Bool.false_eq_true, if_false]
      rw [reconstructChunks, reconstructChunks.reconstructTail, List.append_nil]
  | cons c cs' ih =>
    intro w hw hwlen
    rw [slide]
    by_cases hov : size < w.length + 1
    · rw [if_pos hov]
      have hw'len : (w.drop (w.length - overlap) ++ [c]).length = overlap + 1 := by
        rw [List.length_append, List.length_drop]
        simp only [List.length_singleton]
        omega
      have hne : w.drop (w.length - overlap) ++ [c] ≠ [] := by simp
      rcases hrest : slide size overlap (w.drop (w.length - overlap) ++ [c]) cs'
        with _ | ⟨hd, tl⟩
      · exact absurd hrest (slide_ne_nil size overlap cs' _ hne)
      · obtain ⟨t2, ht2⟩ := slide_head_prefix size overlap cs' _ hd tl hrest
        have hih := ih _ hne (by omega)
        rw [hrest, reconstructChunks] at hih
        have hdlen : (w.drop (w.length - overlap)).length = overlap := by
          rw [List.length_drop]; omega
        have hdrop : hd.drop overlap = [c] ++ t2 := by
          rw [← ht2, List.append_assoc]
          exact List.drop_left' hdlen
        have hcs : t2 ++ reconstructChunks.reconstructTail overlap tl = cs' := by
          have h2 : (w.drop (w.length - overlap) ++ [c]) ++
              (t2 ++ reconstructChunks.reconstructTail overlap tl) =
              (w.drop (w.length - overlap) ++ [c]) ++ cs' := by
            rw [← List.append_assoc, ht2, hih]
          exact List.append_cancel_left h2
        rw [reconstructChunks, reconstructChunks.reconstructTail, hdrop]
        rw [List.append_assoc, hcs]
        rfl
    · rw [if_neg hov]
      rw [ih (w ++ [c]) (by simp) (by
        rw [List.length_append]
        simp only [List.length_singleton]
        omega)]
      rw [List.append_assoc]
      rfl

theorem reconstructTail_zero_singletons (t : List Char) :
    reconstructChunks.reconstructTail 0 (t.map (fun c => [c])) = t := by
  induction t with
  | nil => rfl
  | cons a t2 ih =>
    rw [List.map_cons, reconstructChunks.reconstructTail, ih]
    rfl

theorem reconstruct_zero_singletons (T : List Char) :
    reconstructChunks 0 (T.map (fun c => [c])) = T := by
  cases T with
  | nil => rfl
  | cons a t =>
    rw [List.map_cons, reconstructChunks, reconstructTail_zero_singletons]
    rfl

theorem overlapChainB_zero_singletons (T : List Char) :
    overlapChainB 0 (T.map (fun c => [c])) = true := by
  induction T with
  | nil => rfl
  | cons a t ih =>
    cases t with
    | nil => rfl
    | cons b t2 =>
      rw [List.map_cons, List.map_cons, overlapChainB, Bool.and_eq_true]
      exact ⟨by simp, ih⟩

/-- C6 (amended): for whitespace-free text (so that splitting degrades to
the character level and trimming is inert) and `overlap < size`, the
splitter produces chunks of length at most `size`, consecutive chunks
share exactly `overlap` characters, and concatenating the chunks with the
overlaps removed reconstructs the text. -/
theorem split_claim_of_ws_free (size overlap : Nat) (T : List Char)
    (hso : overlap < size) (hws : ∀ c ∈ T, c.isWhitespace = false) :
    splitClaimHolds size overlap T := by
  have hL3 := splitModel_eq_splitL3 size overlap T hws
  unfold splitClaimHolds
  rw [hL3, splitL3]
  have hjs : jsSplit [] T = T.map (fun c => [c]) := rfl
  rw [hjs, filter_nonempty_map_singleton]
  by_cases h1 : 1 < size
  · rw [procSplits_all_good size overlap [] (fun _ => []) false (T.map fun c => [c]) []
      (by intro s hs; obtain ⟨c, _, rfl⟩ := List.mem_map.mp hs; simpa using h1)]
    rw [List.nil_append]
    cases T with
    | nil =>
      refine ⟨?_, ?_, ?_⟩ <;> simp [overlapChainB, reconstructChunks]
    | cons c cs =>
      have hemp : ((c :: cs).map (fun c => [c])).isEmpty = false := rfl
      rw [hemp]
      simp only [Bool.false_eq_true, if_false]
      have hms : mergeSplits size overlap [] ((c :: cs).map fun c => [c]) =
          slide size overlap [] (c :: cs) := by
        rw [mergeSplits]
        exact mergeLoop_eq_slide size overlap hso (c :: cs) [] (by simp) (by simp)
          hws
      rw [hms]
      have hslide : slide size overlap [] (c :: cs) = slide size overlap [c] cs := by
        rw [slide, if_neg (by simp only [List.length_nil]; omega)]
        rfl
      rw [hslide]
      have hclen : ([c] : List Char).length ≤ size := by
        simp only [List.length_singleton]; omega
      refine ⟨slide_length_le size overlap hso cs [c] hclen,
        slide_chain size overlap hso cs [c] hclen, ?_⟩
      rw [slide_reconstruct size overlap hso cs [c] (by simp) hclen]
      rfl
  · have hsz : size = 1 := by omega
    have hov0 : overlap = 0 := by omega
    rw [procSplits_all_oversized size overlap [] (fun _ => []) (T.map fun c => [c])
      (by intro s hs; obtain ⟨c, _, rfl⟩ := List.mem_map.mp hs
          simp only [List.length_singleton]; omega)]
    subst hsz
    subst hov0
    refine ⟨?_, overlapChainB_zero_singletons T, reconstruct_zero_singletons T⟩
    intro ch hch
    obtain ⟨c, _, rfl⟩ := List.mem_map.mp hch
    simp

/-- Witness for the amended C6: a five-character whitespace-free text with
`size = 3`, `overlap = 2`. -/
theorem split_claim_of_ws_free_witness :
    splitClaimHolds 3 2 ("abcde".toList) :=
  split_claim_of_ws_free 3 2 ("abcde".toList) (by decide) (by decide)

/-- C6 (counterexample): on `"aa bb cc"` with `size = 4`, `overlap = 1`
the splitter returns `["aa", "bb", "cc"]` — consecutive chunks share no
characters (the separator spaces are consumed at chunk boundaries) and the
concatenation with overlaps removed is `"aabc"`, not the input — so the
claimed property fails. -/
theorem split_claim_cex :
    splitModel 4 1 ("aa bb cc".toList) =
      ["aa".toList, "bb".toList, "cc".toList] ∧
    ¬ splitClaimHolds 4 1 ("aa bb cc".toList) := by
  constructor
  · decide
  · intro h
    have h3 := h.2.2
    revert h3
    decide

theorem resetFree_append (a b : List RedisCmd) :
    resetFree (a ++ b) = (resetFree a && resetFree b) := by
  simp [resetFree, List.all_append]

theorem resetFree_delKeyCmds (m : FileMetadata) : resetFree (delKeyCmds m) = true := by
  unfold delKeyCmds
  match m.chunkKeys with
  | none => simp [resetFree]
  | some ks =>
    by_cases h : ks.length ≠ 0 <;>
      simp [h, resetFree, List.all_eq_true, isResetCmd]

theorem resetFree_deleteLoop (target : String) (snapshot : List Entry) :
    ∀ (i : Nat) (live : List Entry) (vecs : List String) (found : Bool)
      (tr : List RedisCmd), resetFree tr = true →
      resetFree (deleteLoop target snapshot i live vecs found tr).2.2.2 = true := by
  intro i
  induction i with
  | zero => intro live vecs found tr htr; simpa [deleteLoop] using htr
  | succ i ih =>
    intro live vecs found tr htr
    unfold deleteLoop
    match hsnap : snapshot[i]? with
    | none => exact ih live vecs found tr htr
    | some (Entry.bad s) => exact ih live vecs found tr htr
    | some (Entry.ok m) =>
      by_cases hm : m.filePath == some target
      · simp only [hm, if_true]
        by_cases hi : i < live.length
        · simp only [hi, if_true]
          apply ih
          rw [resetFree_append, resetFree_append, htr, resetFree_delKeyCmds m]
          simp [resetFree, isResetCmd]
        · simp only [hi, if_false]
          apply ih
          rw [resetFree_append, htr, resetFree_delKeyCmds m]
          rfl
      · simp only [hm, if_false]
        exact ih live vecs found tr htr

/-- C1 (counterexample): a delete whose path matches the only ledger entry
empties the ledger, reports success — and its command trace contains no
index-schema command at all: no reset is invoked before returning. -/
theorem delete_no_reset_cex :
    (deleteModel "p"
        { ledger := [Entry.ok
            { fileName := some "n", filePath := some "p",
              processedAt := some "t", chunkKeys := some ["k"] }],
          vectors := ["k"] }).1.ledger = [] ∧
    (deleteModel "p"
        { ledger := [Entry.ok
            { fileName := some "n", filePath := some "p",
              processedAt := some "t", chunkKeys := some ["k"] }],
          vectors := ["k"] }).2.1 = true ∧
    resetFree (deleteModel "p"
        { ledger := [Entry.ok
            { fileName := some "n", filePath := some "p",
              processedAt := some "t", chunkKeys := some ["k"] }],
          vectors := ["k"] }).2.2 = true := by
  decide

/-- C1 (amended): the delete operation never invokes an index reset — its
command trace never contains a schema drop or create, no matter the ledger
state, in particular also when the last ledger entry is deleted. -/
theorem delete_never_resets (target : String) (st : VSState) :
    resetFree (deleteModel target st).2.2 = true := by
  unfold deleteModel
  exact resetFree_deleteLoop _ _ _ _ _ _ _ (by decide)

/-- C10: the list operation returns exactly one output element per ledger
entry, in order — parsed metadata for entries that parse, the raw string
verbatim for entries that do not — so the output length always equals the
ledger length. -/
theorem get_one_item_per_entry (l : List Entry) :
    (getFiles l).length = l.length ∧
    (∀ (i : Nat) (m : FileMetadata), l[i]? = some (Entry.ok m) →
      (getFiles l)[i]? = some (GetItem.parsed m)) ∧
    (∀ (i : Nat) (s : String), l[i]? = some (Entry.bad s) →
      (getFiles l)[i]? = some (GetItem.rawStr s)) := by
  refine ⟨by simp [getFiles], ?_, ?_⟩
  · intro i m hi
    simp [getFiles, List.getElem?_map, hi]
  · intro i s hi
    simp [getFiles, List.getElem?_map, hi]

/-- C5 (counterexample): an entry that fails to deserialize is *not*
omitted from the listing — a one-entry corrupt ledger produces a one-item
output holding the raw string, not an empty output. -/
theorem get_corrupt_not_skipped_cex :
    getFiles [Entry.bad "not json"] = [GetItem.rawStr "not json"] ∧
    getFiles [Entry.bad "not json"] ≠ [] := by
  exact ⟨rfl, by decide⟩

/-- C5 (amended): the list operation reads every entry and never fails on
corrupt ones — it always answers 200 with one item per entry, and an entry
that fails to deserialize is returned verbatim as the raw string rather
than being omitted. -/
theorem get_total_on_corrupt (l : List Entry) :
    (getEndpoint l).1 = 200 ∧
    (getEndpoint l).2.length = l.length ∧
    (∀ (i : Nat) (s : String), l[i]? = some (Entry.bad s) →
      (getEndpoint l).2[i]? = some (GetItem.rawStr s)) := by
  refine ⟨rfl, by simp [getEndpoint, getFiles], ?_⟩
  intro i s hi
  simp [getEndpoint, getFiles, List.getElem?_map, hi]

/-- Witness for C10 at a concrete ledger. -/
theorem get_one_item_witness :
    getFiles [Entry.bad "x"] = [GetItem.rawStr "x"] ∧
    (getFiles [Entry.ok ⟨none, none, none, none⟩, Entry.bad "y"])[1]? =
      some (GetItem.rawStr "y") := by
  exact ⟨rfl,
    (get_one_item_per_entry [Entry.ok ⟨none, none, none, none⟩,
      Entry.bad "y"]).2.2 1 "y" rfl⟩

/-- Witness for the amended C5 at a concrete corrupt ledger. -/
theorem get_total_witness :
    (getEndpoint [Entry.bad "broken"]).1 = 200 ∧
    (getEndpoint [Entry.bad "broken"]).2[0]? = some (GetItem.rawStr "broken") := by
  exact ⟨(get_total_on_corrupt [Entry.bad "broken"]).1,
         (get_total_on_corrupt [Entry.bad "broken"]).2.2 0 "broken" rfl⟩

/-- C8 (counterexample): a caller-supplied numeric `0` is *not* used as
given — `0 || default` is falsy in JavaScript, so both chunk fields fall
back to the defaults. -/
theorem chunk_zero_not_kept_cex :
    resolveChunk { size := some 0, overlap := some 0 } =
      { size := 1000, overlap := 200 } ∧
    resolveChunk { size := some 0, overlap := some 0 } ≠
      { size := 0, overlap := 0 } := by
  exact ⟨rfl, by decide⟩

/-- C8 (amended): the defaults `size = 1000`, `overlap = 200` are applied
exactly when the caller-supplied value is unset/non-numeric *or equal to
`0`* (JavaScript falsy); any other numeric value is used as given. -/
theorem chunk_defaults (s o : Option Int) :
    ((s = none ∨ s = some 0) → (resolveChunk { size := s, overlap := o }).size = 1000) ∧
    ((o = none ∨ o = some 0) → (resolveChunk { size := s, overlap := o }).overlap = 200) ∧
    (∀ x : Int, s = some x → x ≠ 0 → (resolveChunk { size := s, overlap := o }).size = x) ∧
    (∀ x : Int, o = some x → x ≠ 0 → (resolveChunk { size := s, overlap := o }).overlap = x) := by
  refine ⟨?_, ?_, ?_, ?_⟩
  · rintro (rfl | rfl) <;> simp [resolveChunk, jsOrNum]
  · rintro (rfl | rfl) <;> simp [resolveChunk, jsOrNum]
  · rintro x rfl hx; simp [resolveChunk, jsOrNum, hx]
  · rintro x rfl hx; simp [resolveChunk, jsOrNum, hx]

/-- Witness for the amended C8 at a concrete input: size `3` is kept,
unset overlap falls back to `200`. -/
theorem chunk_defaults_witness :
    (resolveChunk { size := some 3, overlap := none }).overlap = 200 ∧
    (resolveChunk { size := some 3, overlap := none }).size = 3 := by
  exact ⟨(chunk_defaults (some 3) none).2.1 (Or.inl rfl),
         (chunk_defaults (some 3) none).2.2.1 3 rfl (by decide)⟩

theorem processAndStoreEmbeddings_error_of_storeR_error
    (loadR : Except String (List Doc)) (e : String)
    (splitFn : ChunkCfg → List Doc → List Doc) (pfx : String) (c : OptChunk) :
    ∃ e', processAndStoreEmbeddings loadR (Except.error e) splitFn pfx c =
      Except.error e' := by
  cases loadR with
  | error e0 => exact ⟨e0, rfl⟩
  | ok docs => exact ⟨e, rfl⟩

theorem embedModel_eq_of_path_error
    (req : EmbedReq) (urlValid : Bool) (titleR : Except String String)
    (loadR : Except String (List Doc)) (storeR : Except String Unit)
    (splitFn : ChunkCfg → List Doc → List Doc) (pfx : String)
    (partialKeys : List String) (pushR : Except String Unit) (now : String)
    (st : VSState) (e : String) (hrp : resolvePath req urlValid = Except.error e) :
    embedModel req urlValid titleR loadR storeR splitFn pfx partialKeys pushR now st =
      (st, EmbedRes.error e) := by
  unfold embedModel; rw [hrp]

theorem embedModel_eq_of_title_error
    (req : EmbedReq) (urlValid : Bool) (titleR : Except String String)
    (loadR : Except String (List Doc)) (storeR : Except String Unit)
    (splitFn : ChunkCfg → List Doc → List Doc) (pfx : String)
    (partialKeys : List String) (pushR : Except String Unit) (now : String)
    (st : VSState) (path e : String) (hrp : resolvePath req urlValid = Except.ok path)
    (hrt : resolveTitle req titleR = Except.error e) :
    embedModel req urlValid titleR loadR storeR splitFn pfx partialKeys pushR now st =
      (st, EmbedRes.error e) := by
  unfold embedModel; rw [hrp, hrt]

theorem embedModel_eq_of_empty_path
    (req : EmbedReq) (urlValid : Bool) (titleR : Except String String)
    (loadR : Except String (List Doc)) (storeR : Except String Unit)
    (splitFn : ChunkCfg → List Doc → List Doc) (pfx : String)
    (partialKeys : List String) (pushR : Except String Unit) (now : String)
    (st : VSState) (path nm : String) (hrp : resolvePath req urlValid = Except.ok path)
    (hrt : resolveTitle req titleR = Except.ok nm) (hp : path = "") :
    embedModel req urlValid titleR loadR storeR splitFn pfx partialKeys pushR now st =
      (st, EmbedRes.badRequest) := by
  unfold embedModel; rw [hrp, hrt]; dsimp only; rw [if_pos hp]

theorem embedModel_eq_of_process_error
    (req : EmbedReq) (urlValid : Bool) (titleR : Except String String)
    (loadR : Except String (List Doc)) (storeR : Except String Unit)
    (splitFn : ChunkCfg → List Doc → List Doc) (pfx : String)
    (partialKeys : List String) (pushR : Except String Unit) (now : String)
    (st : VSState) (path nm e : String) (hrp : resolvePath req urlValid = Except.ok path)
    (hrt : resolveTitle req titleR = Except.ok nm) (hp : path ≠ "")
    (hpr : processAndStoreEmbeddings loadR storeR splitFn pfx
      (mkFileConfig req path).chunk = Except.error e) :
    embedModel req urlValid titleR loadR storeR splitFn pfx partialKeys pushR now st =
      ({ st with vectors := st.vectors ++ partialKeys }, EmbedRes.error e) := by
  unfold embedModel; rw [hrp, hrt]; dsimp only; rw [if_neg hp, hpr]

theorem embedModel_eq_of_push_error
    (req : EmbedReq) (urlValid : Bool) (titleR : Except String String)
    (loadR : Except String (List Doc)) (storeR : Except String Unit)
    (splitFn : ChunkCfg → List Doc → List Doc) (pfx : String)
    (partialKeys : List String) (e now : String)
    (st : VSState) (path nm : String) (keys : List String)
    (hrp : resolvePath req urlValid = Except.ok path)
    (hrt : resolveTitle req titleR = Except.ok nm) (hp : path ≠ "")
    (hpr : processAndStoreEmbeddings loadR storeR splitFn pfx
      (mkFileConfig req path).chunk = Except.ok keys) :
    embedModel req urlValid titleR loadR storeR splitFn pfx partialKeys
      (Except.error e) now st =
      ({ st with vectors := st.vectors ++ keys }, EmbedRes.error e) := by
  unfold embedModel; rw [hrp, hrt]; dsimp only; rw [if_neg hp, hpr]

theorem embedModel_eq_of_success
    (req : EmbedReq) (urlValid : Bool) (titleR : Except String String)
    (loadR : Except String (List Doc)) (storeR : Except String Unit)
    (splitFn : ChunkCfg → List Doc → List Doc) (pfx : String)
    (partialKeys : List String) (now : String)
    (st : VSState) (path nm : String) (keys : List String)
    (hrp : resolvePath req urlValid = Except.ok path)
    (hrt : resolveTitle req titleR = Except.ok nm) (hp : path ≠ "")
    (hpr : processAndStoreEmbeddings loadR storeR splitFn pfx
      (mkFileConfig req path).chunk = Except.ok keys) :
    embedModel req urlValid titleR loadR storeR splitFn pfx partialKeys
      (Except.ok ()) now st =
      ({ ledger := Entry.ok { fileName := some nm, filePath := some path,
                              processedAt := some now,
                              chunkKeys := some keys } :: st.ledger,
         vectors := st.vectors ++ keys }, EmbedRes.ok) := by
  unfold embedModel; rw [hrp, hrt]; dsimp only; rw [if_neg hp, hpr]

/-- C2: the ledger append is strictly last.  If URL validation, title
fetching, content loading, the vector-store write, or the `lPush` itself
fails, the `embed` call leaves the ledger unchanged; the ledger gains an
entry only when the whole pipeline succeeded, and that entry records
exactly the chunk keys of the vector records that were submitted. -/
theorem embed_ledger_append_last
    (req : EmbedReq) (urlValid : Bool) (titleR : Except String String)
    (loadR : Except String (List Doc)) (storeR : Except String Unit)
    (splitFn : ChunkCfg → List Doc → List Doc) (pfx : String)
    (partialKeys : List String) (pushR : Except String Unit) (now : String)
    (st : VSState) :
    ((embedModel req urlValid titleR loadR storeR splitFn pfx partialKeys
        pushR now st).2 ≠ EmbedRes.ok →
      (embedModel req urlValid titleR loadR storeR splitFn pfx partialKeys
        pushR now st).1.ledger = st.ledger) ∧
    ((embedModel req urlValid titleR loadR storeR splitFn pfx partialKeys
        pushR now st).2 = EmbedRes.ok →
      storeR = Except.ok () ∧
      ∃ nm path keys,
        processAndStoreEmbeddings loadR storeR splitFn pfx
          (mkFileConfig req path).chunk = Except.ok keys ∧
        (embedModel req urlValid titleR loadR storeR splitFn pfx partialKeys
          pushR now st).1.ledger =
          Entry.ok { fileName := some nm, filePath := some path,
                     processedAt := some now, chunkKeys := some keys }
            :: st.ledger) := by
  cases hrp : resolvePath req urlValid with
  | error e =>
    rw [embedModel_eq_of_path_error req urlValid titleR loadR storeR splitFn pfx
      partialKeys pushR now st e hrp]
    exact ⟨fun _ => rfl, fun hok => by simp at hok⟩
  | ok path =>
    cases hrt : resolveTitle req titleR with
    | error e =>
      rw [embedModel_eq_of_title_error req urlValid titleR loadR storeR splitFn pfx
        partialKeys pushR now st path e hrp hrt]
      exact ⟨fun _ => rfl, fun hok => by simp at hok⟩
    | ok nm =>
      by_cases hp : path = ""
      · rw [embedModel_eq_of_empty_path req urlValid titleR loadR storeR splitFn pfx
          partialKeys pushR now st path nm hrp hrt hp]
        exact ⟨fun _ => rfl, fun hok => by simp at hok⟩
      · cases hpr : processAndStoreEmbeddings loadR storeR splitFn pfx
            (mkFileConfig req path).chunk with
        | error e =>
          rw [embedModel_eq_of_process_error req urlValid titleR loadR storeR splitFn pfx
            partialKeys pushR now st path nm e hrp hrt hp hpr]
          exact ⟨fun _ => rfl, fun hok => by simp at hok⟩
        | ok keys =>
          cases pushR with
          | error e =>
            rw [embedModel_eq_of_push_error req urlValid titleR loadR storeR splitFn pfx
              partialKeys e now st path nm keys hrp hrt hp hpr]
            exact ⟨fun _ => rfl, fun hok => by simp at hok⟩
          | ok u =>
            rw [embedModel_eq_of_success req urlValid titleR loadR storeR splitFn pfx
              partialKeys now st path nm keys hrp hrt hp hpr]
            refine ⟨fun h => absurd rfl h, fun _ => ⟨?_, nm, path, keys, hpr, rfl⟩⟩
            cases storeR with
            | error e =>
              obtain ⟨eb, heb⟩ := processAndStoreEmbeddings_error_of_storeR_error
                loadR e splitFn pfx (mkFileConfig req path).chunk
              rw [hpr] at heb
              exact absurd heb (by simp)
            | ok v => rfl

/-- Witness for C2: a failing loader aborts the call and the ledger stays
untouched. -/
theorem embed_ledger_append_last_witness :
    (embedModel ⟨none, some "http://x", none, none⟩
      true (Except.ok "T") (Except.error "load failed") (Except.ok ())
      (fun _ d => d) "rds:r:" [] (Except.ok ()) "2024-01-01"
      ⟨[], []⟩).1.ledger = ([] : List Entry) := by
  exact (embed_ledger_append_last ⟨none, some "http://x", none, none⟩
    true (Except.ok "T") (Except.error "load failed") (Except.ok ())
    (fun _ d => d) "rds:r:" [] (Except.ok ()) "2024-01-01"
    ⟨[], []⟩).1 (by decide)

theorem deleteLoop_no_match (target : String) (snapshot : List Entry)
    (h : ∀ e ∈ snapshot, matchesPath target e = false) :
    ∀ (i : Nat) (live : List Entry) (vecs : List String) (found : Bool)
      (tr : List RedisCmd),
      deleteLoop target snapshot i live vecs found tr = (live, vecs, found, tr) := by
  intro i
  induction i with
  | zero => intro live vecs found tr; rfl
  | succ i ih =>
    intro live vecs found tr
    unfold deleteLoop
    match hsnap : snapshot[i]? with
    | none => exact ih live vecs found tr
    | some (Entry.bad s) => exact ih live vecs found tr
    | some (Entry.ok m) =>
      have hmem : Entry.ok m ∈ snapshot := List.getElem?_mem hsnap
      have hne : (m.filePath == some target) = false := h _ hmem
      simp only [hne, Bool.false_eq_true, if_false]
      exact ih live vecs found tr

/-- C4: a delete for a path no ledger entry matches reports "not found"
(a non-fatal 404, not an exception) and mutates nothing: ledger and
vector records are exactly as before. -/
theorem delete_not_found_no_mutation (target : String) (st : VSState)
    (ht : target ≠ "")
    (h : ∀ e ∈ st.ledger, matchesPath target e = false) :
    (deleteEndpoint (some target) st).1.ledger = st.ledger ∧
    (deleteEndpoint (some target) st).1.vectors = st.vectors ∧
    (deleteEndpoint (some target) st).2.1 = DeleteRes.notFound := by
  have hloop := deleteLoop_no_match target st.ledger h st.ledger.length
    st.ledger st.vectors false [RedisCmd.lRange]
  refine ⟨?_, ?_, ?_⟩ <;>
    simp [deleteEndpoint, ht, deleteModel, hloop]

/-- Witness for C4 at a concrete non-matching ledger. -/
theorem delete_not_found_witness :
    (deleteEndpoint (some "p")
      ⟨[Entry.ok ⟨some "n", some "q", some "t", some ["k"]⟩], ["k"]⟩).1.vectors
      = ["k"] ∧
    (deleteEndpoint (some "p")
      ⟨[Entry.ok ⟨some "n", some "q", some "t", some ["k"]⟩], ["k"]⟩).2.1
      = DeleteRes.notFound := by
  have h := delete_not_found_no_mutation "p"
    ⟨[Entry.ok ⟨some "n", some "q", some "t", some ["k"]⟩], ["k"]⟩
    (by decide) (by decide)
  exact ⟨h.2.1, h.2.2⟩

theorem set_append_cons (l₁ l₂ : List Entry) (v x : Entry) :
    (l₁ ++ x :: l₂).set l₁.length v = l₁ ++ v :: l₂ := by
  induction l₁ with
  | nil => rfl
  | cons b t ih => simp [List.set, ih]

theorem deleteLoop_inv (target : String) (S : List Entry) (vecs0 : List String)
    (hs : SENTINEL ∉ S) :
    ∀ (i : Nat), i ≤ S.length → ∀ (tr : List RedisCmd),
      ∃ trOut,
        deleteLoop target S i
          (S.take i ++ keepEntries target (S.drop i))
          (vecs0.filter (fun k => !((matchedKeys target (S.drop i)).contains k)))
          ((S.drop i).any (matchesPath target)) tr
        = (keepEntries target S,
           vecs0.filter (fun k => !((matchedKeys target S).contains k)),
           S.any (matchesPath target), trOut) := by
  intro i
  induction i with
  | zero =>
    intro _ tr
    exact ⟨tr, by simp [deleteLoop]⟩
  | succ i ih =>
    intro hi tr
    have hilt : i < S.length := Nat.lt_of_succ_le hi
    have hile : i ≤ S.length := Nat.le_of_lt hilt
    have hdrop : S.drop i = S[i] :: S.drop (i + 1) := List.drop_eq_getElem_cons hilt
    have htake : S.take (i + 1) = S.take i ++ [S[i]] := by
      rw [List.take_succ, List.getElem?_eq_getElem hilt]; rfl
    have hget : S[i]? = some S[i] := List.getElem?_eq_getElem hilt
    have hlti : (S.take i).length = i := by rw [List.length_take]; omega
    simp only [deleteLoop, hget]
    rcases hE : S[i] with m | sOther
    case bad =>
      rw [hE] at hdrop htake
      have hkeep : keepEntries target (S.drop i) =
          Entry.bad sOther :: keepEntries target (S.drop (i + 1)) := by
        rw [hdrop]; simp [keepEntries, List.filter_cons, matchesPath]
      have hmk : matchedKeys target (S.drop i) = matchedKeys target (S.drop (i + 1)) := by
        rw [hdrop]; simp [matchedKeys]
      have hany : (S.drop i).any (matchesPath target) =
          (S.drop (i + 1)).any (matchesPath target) := by
        rw [hdrop]; simp [matchesPath]
      obtain ⟨trOut, hout⟩ := ih hile tr
      refine ⟨trOut, ?_⟩
      rw [htake, List.append_assoc, List.singleton_append]
      rw [hkeep, hmk, hany] at hout
      exact hout
    case ok =>
      rw [hE] at hdrop htake
      cases hm : m.filePath == some target with
      | false =>
        have hmp : m.filePath ≠ some target := by
          intro hc; simp [hc] at hm
        have hkeep : keepEntries target (S.drop i) =
            Entry.ok m :: keepEntries target (S.drop (i + 1)) := by
          rw [hdrop]; simp [keepEntries, List.filter_cons, matchesPath, hm]
        have hmk : matchedKeys target (S.drop i) = matchedKeys target (S.drop (i + 1)) := by
          rw [hdrop]; simp [matchedKeys, hm, hmp]
        have hany : (S.drop i).any (matchesPath target) =
            (S.drop (i + 1)).any (matchesPath target) := by
          rw [hdrop]; simp [matchesPath, hm]
        obtain ⟨trOut, hout⟩ := ih hile tr
        refine ⟨trOut, ?_⟩
        simp only [hm, Bool.false_eq_true, if_false]
        rw [htake, List.append_assoc, List.singleton_append]
        rw [hkeep, hmk, hany] at hout
        exact hout
      | true =>
        have hmp : m.filePath = some target := by
          simpa using hm
        have hkeep : keepEntries target (S.drop i) =
            keepEntries target (S.drop (i + 1)) := by
          rw [hdrop]; simp [keepEntries, List.filter_cons, matchesPath, hm]
        have hmk : matchedKeys target (S.drop i) =
            m.chunkKeys.getD [] ++ matchedKeys target (S.drop (i + 1)) := by
          rw [hdrop]; simp [matchedKeys, hm, hmp]
        have hany : (S.drop i).any (matchesPath target) = true := by
          rw [hdrop]; simp [matchesPath, hm]
        have hlen : i < (S.take (i + 1) ++ keepEntries target (S.drop (i + 1))).length := by
          rw [List.length_append, List.length_take]; omega
        have hsent : SENTINEL ∉ S.take i :=
          fun hmem => hs (List.take_subset i S hmem)
        have hstep : ((S.take i ++ Entry.ok m ::
              keepEntries target (S.drop (i + 1))).set i SENTINEL).erase SENTINEL =
            S.take i ++ keepEntries target (S.drop (i + 1)) := by
          have h2 := set_append_cons (S.take i)
            (keepEntries target (S.drop (i + 1))) SENTINEL (Entry.ok m)
          rw [hlti] at h2
          rw [h2, List.erase_append_right _ hsent, List.erase_cons_head]
        have hl : ((S.take (i + 1) ++ keepEntries target (S.drop (i + 1))).set i
              SENTINEL).erase SENTINEL =
            S.take i ++ keepEntries target (S.drop i) := by
          rw [htake, List.append_assoc, List.singleton_append, hstep, hkeep]
        have hv : delKeys m
              (vecs0.filter (fun k =>
                !((matchedKeys target (S.drop (i + 1))).contains k))) =
            vecs0.filter (fun k => !((matchedKeys target (S.drop i)).contains k)) := by
          cases hck : m.chunkKeys with
          | none =>
            simp only [delKeys, hck]
            rw [hmk, hck]
            simp
          | some ks =>
            by_cases hks : ks.length = 0
            · have hksnil : ks = [] := List.eq_nil_of_length_eq_zero hks
              simp only [delKeys, hck]
              rw [if_neg (by omega), hmk, hck, hksnil]
              simp
            · simp only [delKeys, hck]
              rw [if_pos hks, List.filter_filter]
              apply List.filter_congr
              intro k _
              rw [hmk, hck]
              simp only [Option.getD_some]
              simp [List.contains_eq_any_beq, List.any_append, Bool.and_comm]
        obtain ⟨trOut, hout⟩ := ih hile
          (tr ++ delKeyCmds m ++ [RedisCmd.lSet i SENTINEL, RedisCmd.lRem SENTINEL])
        refine ⟨trOut, ?_⟩
        simp only [hm, if_true]
        rw [if_pos hlen]
        rw [hany] at hout
        rw [hl, hv]
        exact hout

/-- C3 (amended): provided no ledger entry literally equals the sentinel
string `__DELETED__`, the tail-to-head delete scan removes exactly the
entries whose deserialized form has `filePath` equal to the target
(duplicates included), deletes each matched entry's chunk keys from the
vector store, removes no non-matching entry, and reports `found` exactly
when something matched. -/
theorem delete_removes_exactly_matches (target : String) (st : VSState)
    (hs : SENTINEL ∉ st.ledger) :
    (deleteModel target st).1.ledger = keepEntries target st.ledger ∧
    (deleteModel target st).1.vectors =
      st.vectors.filter (fun k => !((matchedKeys target st.ledger).contains k)) ∧
    (deleteModel target st).2.1 = st.ledger.any (matchesPath target) := by
  obtain ⟨trOut, hout⟩ := deleteLoop_inv target st.ledger st.vectors hs
    st.ledger.length (Nat.le_refl _) [RedisCmd.lRange]
  rw [List.take_length, List.drop_length] at hout
  have hout' : deleteLoop target st.ledger st.ledger.length st.ledger st.vectors
      false [RedisCmd.lRange] =
      (keepEntries target st.ledger,
       st.vectors.filter (fun k => !((matchedKeys target st.ledger).contains k)),
       st.ledger.any (matchesPath target), trOut) := by
    have h0 : keepEntries target ([] : List Entry) = [] := rfl
    have h1 : matchedKeys target ([] : List Entry) = [] := rfl
    rw [h0, h1] at hout
    simpa using hout
  simp [deleteModel, hout']

/-- Witness for the amended C3: duplicates of the path are both removed,
the non-matching entry survives, both matched entries' chunk keys are
deleted, and the delete reports success. -/
theorem delete_removes_exactly_matches_witness :
    (deleteModel "p" ⟨[Entry.ok ⟨some "a", some "p", some "t", some ["k1"]⟩,
        Entry.ok ⟨some "b", some "q", some "t", some ["k2"]⟩,
        Entry.ok ⟨some "c", some "p", some "t", some ["k3"]⟩],
      ["k1", "k2", "k3"]⟩).1.ledger =
      [Entry.ok ⟨some "b", some "q", some "t", some ["k2"]⟩] ∧
    (deleteModel "p" ⟨[Entry.ok ⟨some "a", some "p", some "t", some ["k1"]⟩,
        Entry.ok ⟨some "b", some "q", some "t", some ["k2"]⟩,
        Entry.ok ⟨some "c", some "p", some "t", some ["k3"]⟩],
      ["k1", "k2", "k3"]⟩).1.vectors = ["k2"] ∧
    (deleteModel "p" ⟨[Entry.ok ⟨some "a", some "p", some "t", some ["k1"]⟩,
        Entry.ok ⟨some "b", some "q", some "t", some ["k2"]⟩,
        Entry.ok ⟨some "c", some "p", some "t", some ["k3"]⟩],
      ["k1", "k2", "k3"]⟩).2.1 = true := by
  have h := delete_removes_exactly_matches "p"
    ⟨[Entry.ok ⟨some "a", some "p", some "t", some ["k1"]⟩,
      Entry.ok ⟨some "b", some "q", some "t", some ["k2"]⟩,
      Entry.ok ⟨some "c", some "p", some "t", some ["k3"]⟩],
      ["k1", "k2", "k3"]⟩ (by decide)
  exact ⟨h.1.trans (by decide), h.2.1.trans (by decide), h.2.2.trans (by decide)⟩

/-- C3 (counterexample): with a ledger whose head entry is the literal
raw string `__DELETED__` followed by two entries matching the target, the
substitution-then-remove scheme misfires: `lRem` removes the pre-existing
sentinel (a non-matching entry) instead of the substituted one, and one of
the *matching* entries survives in the final ledger. -/
theorem delete_sentinel_collision_cex :
    matchesPath "p" (Entry.ok ⟨some "a", some "p", some "t", some ["a"]⟩) = true ∧
    (deleteModel "p" ⟨[Entry.bad "__DELETED__",
        Entry.ok ⟨some "a", some "p", some "t", some ["a"]⟩,
        Entry.ok ⟨some "b", some "p", some "t", some ["b"]⟩],
      ["a", "b"]⟩).1.ledger =
      [Entry.ok ⟨some "a", some "p", some "t", some ["a"]⟩] ∧
    (deleteModel "p" ⟨[Entry.bad "__DELETED__",
        Entry.ok ⟨some "a", some "p", some "t", some ["a"]⟩,
        Entry.ok ⟨some "b", some "p", some "t", some ["b"]⟩],
      ["a", "b"]⟩).1.ledger ≠
      keepEntries "p" [Entry.bad "__DELETED__",
        Entry.ok ⟨some "a", some "p", some "t", some ["a"]⟩,
        Entry.ok ⟨some "b", some "p", some "t", some ["b"]⟩] := by
  refine ⟨rfl, ?_, ?_⟩ <;> decide

theorem toDigitsCore_eq_decDigits (f : Nat) :
    ∀ (n : Nat) (acc : List Char), n < f →
      Nat.toDigitsCore 10 f n acc = decDigits n ++ acc := by
  induction f with
  | zero => intro n acc h; omega
  | succ f ih =>
    intro n acc h
    unfold Nat.toDigitsCore
    by_cases h0 : n / 10 = 0
    · rw [if_pos h0, decDigits, dif_pos h0]
      rfl
    · rw [if_neg h0, decDigits, dif_neg h0]
      have hn : 0 < n := by
        rcases Nat.eq_zero_or_pos n with h1 | h1
        · exact absurd (by simp [h1]) h0
        · exact h1
      have hlt : n / 10 < f :=
        Nat.lt_of_lt_of_le (Nat.div_lt_self hn (by decide)) (Nat.le_of_lt_succ h)
      rw [ih (n / 10) ((n % 10).digitChar :: acc) hlt, List.append_assoc]
      rfl

theorem toDigits_eq_decDigits (n : Nat) : Nat.toDigits 10 n = decDigits n := by
  rw [Nat.toDigits, toDigitsCore_eq_decDigits (n + 1) n [] (Nat.lt_succ_self n),
    List.append_nil]

theorem valOfDigits_append_singleton (xs : List Char) (c : Char) :
    valOfDigits (xs ++ [c]) = valOfDigits xs * 10 + digitVal c := by
  induction xs with
  | nil => simp [valOfDigits]
  | cons a t ih =>
    show valOfDigits (a :: (t ++ [c])) = _
    simp only [valOfDigits]
    rw [ih, List.length_append]
    simp only [List.length_singleton]
    ring

theorem digitVal_digitChar (r : Nat) (h : r < 10) :
    digitVal (Nat.digitChar r) = r := by
  interval_cases r <;> rfl

theorem valOfDigits_decDigits (n : Nat) : valOfDigits (decDigits n) = n := by
  induction n using Nat.strong_induction_on with
  | _ n ih =>
    rw [decDigits]
    by_cases h0 : n / 10 = 0
    · rw [dif_pos h0]
      have hlt : n < 10 := by omega
      simp [valOfDigits, digitVal_digitChar (n % 10) (by omega)]
      omega
    · rw [dif_neg h0]
      rw [valOfDigits_append_singleton,
        ih (n / 10) (Nat.div_lt_self (by omega) (by decide)),
        digitVal_digitChar (n % 10) (by omega)]
      omega

/-- `Nat.repr` is injective: decimal strings determine the number. -/
theorem repr_injective : Function.Injective Nat.repr := by
  intro m n h
  have hdata : (Nat.toDigits 10 m) = (Nat.toDigits 10 n) := by
    have := congrArg String.data h
    simpa [Nat.repr, List.asString] using this
  have hv := congrArg valOfDigits
    ((toDigits_eq_decDigits m) ▸ (toDigits_eq_decDigits n) ▸ hdata)
  rwa [valOfDigits_decDigits, valOfDigits_decDigits] at hv

/-- `chunkKey pfx` is injective in the index. -/
theorem chunkKey_injective (pfx : String) : Function.Injective (chunkKey pfx) := by
  intro i j h
  have hdata := congrArg String.data h
  simp only [chunkKey] at hdata
  have hrepr : (Nat.repr i).data = (Nat.repr j).data :=
    List.append_cancel_left hdata
  exact repr_injective (by
    cases hri : Nat.repr i with
    | mk di =>
      cases hrj : Nat.repr j with
      | mk dj =>
        rw [hri, hrj] at hrepr
        simp only [] at hrepr
        exact congrArg String.mk hrepr)

/-- C7: the `i`-th stored vector record's key and its `metadata.id` both
equal the run prefix followed by the decimal index `i`; the returned
`chunkKeys` sequence is exactly `[pfx ++ "0", …]` in chunk order and is
pairwise distinct; `processAndStoreEmbeddings` returns exactly that
sequence, and on success the `embed` handler stores it verbatim in the
appended ledger entry. -/
theorem chunk_key_scheme :
    (∀ (pfx : String) (docs : List Doc),
      ((storeEmbeddings pfx docs).2).length = docs.length ∧
      (∀ (i : Nat), i < docs.length →
        ((storeEmbeddings pfx docs).2)[i]? = some (chunkKey pfx i)) ∧
      (∀ (i : Nat) (d : Doc), docs[i]? = some d →
        ((storeEmbeddings pfx docs).1)[i]? =
          some (chunkKey pfx i, { d with id := some (chunkKey pfx i) })) ∧
      ((storeEmbeddings pfx docs).2).Nodup) ∧
    (∀ (raw : List Doc) (splitFn : ChunkCfg → List Doc → List Doc) (pfx : String)
      (c : OptChunk),
      processAndStoreEmbeddings (Except.ok raw) (Except.ok ()) splitFn pfx c =
        Except.ok ((storeEmbeddings pfx (splitFn (resolveChunk c) raw)).2)) ∧
    (∀ (req : EmbedReq) (urlValid : Bool) (titleR : Except String String)
      (raw : List Doc) (splitFn : ChunkCfg → List Doc → List Doc) (pfx : String)
      (partialKeys : List String) (now : String) (st : VSState) (path nm : String),
      resolvePath req urlValid = Except.ok path →
      resolveTitle req titleR = Except.ok nm → path ≠ "" →
      (embedModel req urlValid titleR (Except.ok raw) (Except.ok ()) splitFn pfx
        partialKeys (Except.ok ()) now st).1.ledger =
        Entry.ok ⟨some nm, some path, some now,
          some ((storeEmbeddings pfx (splitFn (resolveChunk
            (mkFileConfig req path).chunk) raw)).2)⟩ :: st.ledger) := by
  refine ⟨?_, ?_, ?_⟩
  · intro pfx docs
    refine ⟨?_, ?_, ?_, ?_⟩
    · simp [storeEmbeddings, chunkKeysOf]
    · intro i hi
      simp [storeEmbeddings, chunkKeysOf, List.getElem?_map, List.getElem?_range hi]
    · intro i d hd
      simp [storeEmbeddings, assignIds, List.getElem?_map, List.getElem?_enum, hd]
    · exact (List.nodup_range docs.length).map (chunkKey_injective pfx)
  · intro raw splitFn pfx c
    rfl
  · intro req urlValid titleR raw splitFn pfx partialKeys now st path nm hrp hrt hp
    rw [embedModel_eq_of_success req urlValid titleR (Except.ok raw) (Except.ok ())
      splitFn pfx partialKeys now st path nm
      ((storeEmbeddings pfx (splitFn (resolveChunk
        (mkFileConfig req path).chunk) raw)).2) hrp hrt hp rfl]

/-- Witness for C7 at a two-chunk ingestion. -/
theorem chunk_key_scheme_witness :
    ((storeEmbeddings "rds:x:" [⟨"c0", none⟩, ⟨"c1", none⟩]).2)[1]? =
      some "rds:x:1" ∧
    (embedModel ⟨none, some "http://u", none, none⟩ true (Except.ok "T")
      (Except.ok [⟨"c0", none⟩, ⟨"c1", none⟩]) (Except.ok ())
      (fun _ d => d) "rds:x:" [] (Except.ok ()) "now" ⟨[], []⟩).1.ledger =
      [Entry.ok ⟨some "T", some "http://u", some "now",
        some ["rds:x:0", "rds:x:1"]⟩] := by
  constructor
  · exact (chunk_key_scheme.1 "rds:x:" [⟨"c0", none⟩, ⟨"c1", none⟩]).2.1 1
      (by decide)
  · rw [chunk_key_scheme.2.2 ⟨none, some "http://u", none, none⟩ true (Except.ok "T")
      [⟨"c0", none⟩, ⟨"c1", none⟩] (fun _ d => d) "rds:x:" [] "now" ⟨[], []⟩
      "http://u" "T" rfl rfl (by decide)]
    rfl

/-- C9: the chunk configuration the `embed` handler passes to the pipeline
is the hardcoded `{ size: 1000, overlap: 200 }`; the request-body chunk
fields are never read, so requests differing only in those fields get the
same (default-resolved) chunking configuration. -/
theorem embed_chunk_config_constant (req : EmbedReq) (path : String)
    (cs co : Option Int) :
    (mkFileConfig req path).chunk = { size := some 1000, overlap := some 200 } ∧
    resolveChunk (mkFileConfig req path).chunk = { size := 1000, overlap := 200 } ∧
    mkFileConfig { req with bodyChunkSize := cs, bodyChunkOverlap := co } path =
      mkFileConfig req path := by
  exact ⟨rfl, rfl, rfl⟩

end VS
